import Mathlib

/-!
Verification of the refrigerator inventory program (src/hui.cpp).

Modelling conventions:
* C++ `std::string` is modelled as `List Char` (`Str`), with the C++
  lexicographic `operator<` modelled by `strLt`.
* C++ `double` quantities are modelled as `ℚ` (exact arithmetic); the
  six-decimal rendering performed by `std::to_string(double)` is modelled
  by `to6dp` (round to nearest multiple of 10⁻⁶, then print with exactly
  six digits after the decimal point), and `std::stod` applied to the
  numerals produced by that rendering is modelled by `stodM`.
* The `unordered_map<string, Product>` is modelled as an association list;
  its unspecified iteration order is modelled by list order.
* Each member function of `Refrigerator` becomes a function from the
  refrigerator state to the new state paired with its observable output
  (error outcome or displayed data).
-/

namespace Fridge

/-- Strings of the program, modelled as lists of characters. -/
abbrev Str : Type := List Char

/-- The `Product` class: name, quantity and expiration date. -/
structure Product where
  name : Str
  quantity : ℚ
  expirationDate : Str
deriving DecidableEq, Inhabited

/-- The `Refrigerator` state: the keyed product map (association list) and
the action history. -/
structure Refrigerator where
  products : List (Str × Product)
  history : List Str
deriving DecidableEq, Inhabited

/-- The refrigerator constructed at program start: empty map, empty log. -/
def initFridge : Refrigerator := ⟨[], []⟩

/-- Lookup in the product map (models `products.find(name)`). -/
def lookupP : List (Str × Product) → Str → Option Product
  | [], _ => none
  | (k, p) :: rest, n => if k = n then some p else lookupP rest n

/-- Replace the value stored under a key (models in-place mutation through
`products[name]` when the key is present). -/
def updateP : List (Str × Product) → Str → Product → List (Str × Product)
  | [], _, _ => []
  | (k, p) :: rest, n, p2 => if k = n then (k, p2) :: rest else (k, p) :: updateP rest n p2

/-- Remove the entry stored under a key (models `products.erase(name)`). -/
def eraseP : List (Str × Product) → Str → List (Str × Product)
  | [], _ => []
  | (k, p) :: rest, n => if k = n then rest else (k, p) :: eraseP rest n

/-- C++ lexicographic string comparison `a < b`. -/
def strLt : Str → Str → Bool
  | [], [] => false
  | [], _ :: _ => true
  | _ :: _, [] => false
  | a :: as, b :: bs => if a < b then true else if b < a then false else strLt as bs

/-- `Refrigerator::isExpired`: `currentDate >= expirationDate` on strings. -/
def isExpired (currentDate expirationDate : Str) : Bool :=
  !(strLt currentDate expirationDate)

/-- The decimal digit character for a digit value below ten. -/
def digitChar (d : ℕ) : Char := Char.ofNat (48 + d)

/-- Fuel-driven big-endian decimal digit expansion of a natural number. -/
def natDigitsAux : ℕ → ℕ → Str
  | 0, _ => []
  | fuel + 1, n =>
    if n < 10 then [digitChar n] else natDigitsAux fuel (n / 10) ++ [digitChar (n % 10)]

/-- Decimal digits of a natural number, most significant first. -/
def natDigits (n : ℕ) : Str := natDigitsAux (n + 1) n

/-- Zero-pad the decimal digits of a number below 10⁶ to exactly six
characters (the fractional part printed by `std::to_string(double)`). -/
def pad6 (m : ℕ) : Str := List.replicate (6 - (natDigits m).length) '0' ++ natDigits m

/-- Round a rational to the nearest number of millionths (the rounding step
of the six-decimal rendering of `std::to_string(double)`). -/
def round6 (q : ℚ) : ℤ := ⌊q * 1000000 + 1 / 2⌋

/-- Print a number of millionths as a six-decimal numeral. -/
def natPart (m : ℕ) : Str := natDigits (m / 1000000) ++ '.' :: pad6 (m % 1000000)

/-- The model of `std::to_string` on a quantity: six digits after the
decimal point. -/
def to6dp (q : ℚ) : Str :=
  if round6 q < 0 then '-' :: natPart (round6 q).natAbs else natPart (round6 q).toNat

/-- The characters of the word Inserted. -/
def insTag : Str := ['I', 'n', 's', 'e', 'r', 't', 'e', 'd']

/-- The characters of the word Consumed. -/
def conTag : Str := ['C', 'o', 'n', 's', 'u', 'm', 'e', 'd']

/-- The four-character separator between quantity and name in a log record. -/
def ofSep : Str := [' ', 'o', 'f', ' ']

/-- The log record written by a successful insertion. -/
def renderIns (q : ℚ) (n : Str) : Str := insTag ++ ' ' :: (to6dp q ++ ofSep ++ n)

/-- The log record written by a successful consumption. -/
def renderCon (q : ℚ) (n : Str) : Str := conTag ++ ' ' :: (to6dp q ++ ofSep ++ n)

/-- Observable outcome of `insertProduct`: the validation error message or
silent success. -/
inductive InsRes
  | errNonPos
  | ok
deriving DecidableEq

/-- Observable outcome of `consumeProduct`: one of the three error messages
or silent success. -/
inductive ConRes
  | errNonPos
  | errNotFound
  | errNotEnough
  | ok
deriving DecidableEq

/-- `Refrigerator::insertProduct`: reject non-positive quantities; add to
the stored quantity when the name is present (keeping the stored expiration
date), otherwise create a fresh record; log the insertion. -/
def insertProduct (r : Refrigerator) (productName : Str) (productQuantity : ℚ)
    (productExpirationDate : Str) : Refrigerator × InsRes :=
  if productQuantity ≤ 0 then (r, InsRes.errNonPos)
  else
    let ps :=
      match lookupP r.products productName with
      | some p => updateP r.products productName { p with quantity := p.quantity + productQuantity }
      | none => r.products ++ [(productName, ⟨productName, productQuantity, productExpirationDate⟩)]
    ({ products := ps,
       history := r.history ++ [renderIns productQuantity productName] }, InsRes.ok)

/-- `Refrigerator::consumeProduct`: reject non-positive quantities, absent
names, and requests larger than the stored quantity; otherwise subtract,
log the consumption, and erase the record when the quantity hits zero. -/
def consumeProduct (r : Refrigerator) (productName : Str) (productQuantity : ℚ) :
    Refrigerator × ConRes :=
  if productQuantity ≤ 0 then (r, ConRes.errNonPos)
  else
    match lookupP r.products productName with
    | none => (r, ConRes.errNotFound)
    | some p =>
      if p.quantity < productQuantity then (r, ConRes.errNotEnough)
      else
        let p2 := { p with quantity := p.quantity - productQuantity }
        let ps := updateP r.products productName p2
        let ps2 := if p2.quantity = 0 then eraseP ps productName else ps
        ({ products := ps2,
           history := r.history ++ [renderCon productQuantity productName] }, ConRes.ok)

/-- `Refrigerator::showStatus`: the displayed triples, state untouched. -/
def showStatus (r : Refrigerator) : Refrigerator × List (Str × ℚ × Str) :=
  (r, r.products.map fun pr => (pr.2.name, pr.2.quantity, pr.2.expirationDate))

/-- `Refrigerator::showHistory`: the displayed records, state untouched. -/
def showHistory (r : Refrigerator) : Refrigerator × List Str :=
  (r, r.history)

/-- `Refrigerator::checkExpirations`: erase every product whose stored
expiration date satisfies `isExpired`, reporting the erased names and
whether any product was erased. -/
def checkExpirations (r : Refrigerator) (currentDate : Str) :
    Refrigerator × (List Str × Bool) :=
  let expired := r.products.filter fun pr => isExpired currentDate pr.2.expirationDate
  ({ r with
     products := r.products.filter fun pr => !(isExpired currentDate pr.2.expirationDate) },
   (expired.map fun pr => pr.2.name, !expired.isEmpty))

/-- Decides whether one character list occurs as a contiguous block at the
front of another (the test driving the model of `std::string::find`). -/
def isPrefixL : Str → Str → Bool
  | [], _ => true
  | _ :: _, [] => false
  | a :: as, b :: bs => a = b && isPrefixL as bs

/-- Model of `std::string::find`: index of the first occurrence of a
pattern, `none` playing the role of `npos`. -/
def strFind (pat : Str) : Str → Option ℕ
  | [] => if pat.isEmpty then some 0 else none
  | c :: cs => if isPrefixL pat (c :: cs) then some 0 else (strFind pat cs).map (· + 1)

/-- Whether a pattern occurs somewhere in a string
(`s.find(pat) != string::npos`). -/
def containsSub (pat s : Str) : Bool := (strFind pat s).isSome

/-- Numeric value of a decimal digit character. -/
def charVal (c : Char) : ℕ := c.toNat - 48

/-- Value of a big-endian decimal digit string. -/
def digitsToNat (s : Str) : ℕ := s.foldl (fun a c => a * 10 + charVal c) 0

/-- Value of an unsigned decimal numeral with an optional fractional part. -/
def parsePos (s : Str) : ℚ :=
  match s.dropWhile (fun c => !(c == '.')) with
  | _ :: fp =>
    (digitsToNat (s.takeWhile fun c => !(c == '.')) : ℚ) + (digitsToNat fp : ℚ) / 10 ^ fp.length
  | [] => (digitsToNat s : ℚ)

/-- Model of `std::stod` on the numerals produced by `to6dp`: an optional
leading minus sign followed by an unsigned decimal numeral. -/
def stodM : Str → ℚ
  | [] => parsePos []
  | c :: t => if c = '-' then -(parsePos t) else parsePos (c :: t)

/-- One `consumptionMap[name] += qty` step on the aggregation map
(`operator[]` inserts a zero entry for a fresh key before the addition). -/
def bumpKey (m : List (Str × ℚ)) (k : Str) (v : ℚ) : List (Str × ℚ) :=
  match m with
  | [] => [(k, v)]
  | (k2, v2) :: rest => if k2 = k then (k2, v2 + v) :: rest else (k2, v2) :: bumpKey rest k v

/-- Processing of one history record by `generateShoppingList`: records
containing the token Consumed have a quantity (the text between the first
space and the first occurrence of the separator of `ofSep`) and a name (the
text after that separator) parsed out and accumulated.  The two inner
`none` branches are unreachable on records written by the program; the C++
code would throw there, having asked for a substring at `npos`. -/
def shoppingStep (m : List (Str × ℚ)) (entry : Str) : List (Str × ℚ) :=
  if containsSub conTag entry then
    match strFind ofSep entry with
    | some qEnd =>
      match strFind [' '] entry with
      | some sp =>
        let quantityStart := sp + 1
        let consumedQuantity := stodM ((entry.drop quantityStart).take (qEnd - quantityStart))
        let productName := entry.drop (qEnd + 4)
        bumpKey m productName consumedQuantity
      | none => m
    | none => m
  else m

/-- `Refrigerator::generateShoppingList`: re-parse the history and
aggregate consumed quantities per product name; state untouched. -/
def generateShoppingList (r : Refrigerator) : Refrigerator × List (Str × ℚ) :=
  (r, r.history.foldl shoppingStep [])

/-- The operations a user can trigger from the menu loop. -/
inductive Op
  | ins (n : Str) (q : ℚ) (d : Str)
  | con (n : Str) (q : ℚ)
  | sweep (d : Str)
  | stat
  | hist
  | shop
deriving DecidableEq

/-- State transition of one menu operation. -/
def applyOp (r : Refrigerator) : Op → Refrigerator
  | Op.ins n q d => (insertProduct r n q d).1
  | Op.con n q => (consumeProduct r n q).1
  | Op.sweep d => (checkExpirations r d).1
  | Op.stat => (showStatus r).1
  | Op.hist => (showHistory r).1
  | Op.shop => (generateShoppingList r).1

/-- The state reached from program start by a sequence of operations. -/
def runOps (ops : List Op) : Refrigerator := ops.foldl applyOp initFridge

/-- Repeated insertion under one fixed name, with per-call quantity and
expiration date. -/
def insertMany (r : Refrigerator) (n : Str) (l : List (ℚ × Str)) : Refrigerator :=
  l.foldl (fun s x => (insertProduct s n x.1 x.2).1) r

/-- Specification-side description of what an operation appends to the
action log: one insertion record on successful insert, one consumption
record on successful consume, nothing in every other case. -/
def logDelta (r : Refrigerator) : Op → List Str
  | Op.ins n q _ => if 0 < q then [renderIns q n] else []
  | Op.con n q =>
    if 0 < q then
      match lookupP r.products n with
      | some p => if q ≤ p.quantity then [renderCon q n] else []
      | none => []
    else []
  | _ => []

/-! ### Association-list lemmas -/

theorem lookupP_updateP_self {ps : List (Str × Product)} {n : Str} {p : Product} (p2 : Product)
    (h : lookupP ps n = some p) : lookupP (updateP ps n p2) n = some p2 := by
  induction ps with
  | nil => simp [lookupP] at h
  | cons hd tl ih =>
    obtain ⟨k, v⟩ := hd
    by_cases hk : k = n
    · simp [lookupP, updateP, hk]
    · simp [lookupP, updateP, hk] at h ⊢
      exact ih h

theorem eraseP_updateP (ps : List (Str × Product)) (n : Str) (p2 : Product) :
    eraseP (updateP ps n p2) n = eraseP ps n := by
  induction ps with
  | nil => simp [updateP, eraseP]
  | cons hd tl ih =>
    obtain ⟨k, v⟩ := hd
    by_cases hk : k = n
    · simp [updateP, eraseP, hk]
    · simp [updateP, eraseP, hk, ih]

theorem mem_updateP {ps : List (Str × Product)} {n : Str} {p2 : Product} {pr : Str × Product}
    (h : pr ∈ updateP ps n p2) : pr ∈ ps ∨ pr = (n, p2) := by
  induction ps with
  | nil => simp [updateP] at h
  | cons hd tl ih =>
    obtain ⟨k, v⟩ := hd
    by_cases hk : k = n
    · subst hk
      simp [updateP] at h
      rcases h with h | h
      · exact Or.inr (by simp [h])
      · exact Or.inl (by simp [h])
    · simp [updateP, hk] at h
      rcases h with h | h
      · exact Or.inl (by simp [h])
      · rcases ih h with h2 | h2
        · exact Or.inl (by simp [h2])
        · exact Or.inr h2

theorem mem_eraseP {ps : List (Str × Product)} {n : Str} {pr : Str × Product}
    (h : pr ∈ eraseP ps n) : pr ∈ ps := by
  induction ps with
  | nil => simp [eraseP] at h
  | cons hd tl ih =>
    obtain ⟨k, v⟩ := hd
    by_cases hk : k = n
    · simp [eraseP, hk] at h
      exact List.mem_cons_of_mem _ h
    · simp [eraseP, hk] at h
      rcases h with h | h
      · exact List.mem_cons.mpr (Or.inl h)
      · exact List.mem_cons_of_mem _ (ih h)

theorem lookupP_mem {ps : List (Str × Product)} {n : Str} {p : Product}
    (h : lookupP ps n = some p) : (n, p) ∈ ps := by
  induction ps with
  | nil => simp [lookupP] at h
  | cons hd tl ih =>
    obtain ⟨k, v⟩ := hd
    by_cases hk : k = n
    · subst hk
      simp [lookupP] at h
      simp [h]
    · simp [lookupP, hk] at h
      exact List.mem_cons_of_mem _ (ih h)

theorem lookupP_append_of_none {ps qs : List (Str × Product)} {n : Str}
    (h : lookupP ps n = none) : lookupP (ps ++ qs) n = lookupP qs n := by
  induction ps with
  | nil => simp
  | cons hd tl ih =>
    obtain ⟨k, v⟩ := hd
    by_cases hk : k = n
    · simp [lookupP, hk] at h
    · simp [lookupP, hk] at h ⊢
      exact ih h

/-! ### Claim C1 -/

/-- C1: every failing operation — insert with non-positive quantity,
consume with non-positive quantity, consume of an absent name, or consume
of more than the stored quantity — leaves the ledger and the action log
(that is, the whole refrigerator state) exactly unchanged. -/
theorem failing_ops_preserve_state (r : Refrigerator) (n : Str) (q : ℚ) (d : Str) :
    (q ≤ 0 → (insertProduct r n q d).1 = r) ∧
    (q ≤ 0 → (consumeProduct r n q).1 = r) ∧
    (lookupP r.products n = none → (consumeProduct r n q).1 = r) ∧
    (∀ p, lookupP r.products n = some p → p.quantity < q → (consumeProduct r n q).1 = r) := by
  refine ⟨fun h => by simp [insertProduct, h], fun h => by simp [consumeProduct, h], ?_, ?_⟩
  · intro h
    by_cases hq : q ≤ 0
    · simp [consumeProduct, hq]
    · simp [consumeProduct, hq, h]
  · intro p hp hlt
    by_cases hq : q ≤ 0
    · simp [consumeProduct, hq]
    · simp [consumeProduct, hq, hp, hlt]

/-- Witness for C1 at a concrete one-item state. -/
theorem failing_ops_preserve_state_witness :
    (insertProduct ⟨[(['a'], ⟨['a'], 1, ['d']⟩)], []⟩ ['a'] (-1) ['d']).1
        = ⟨[(['a'], ⟨['a'], 1, ['d']⟩)], []⟩ ∧
    (consumeProduct ⟨[(['a'], ⟨['a'], 1, ['d']⟩)], []⟩ ['a'] 0).1
        = ⟨[(['a'], ⟨['a'], 1, ['d']⟩)], []⟩ ∧
    (consumeProduct ⟨[(['a'], ⟨['a'], 1, ['d']⟩)], []⟩ ['b'] 1).1
        = ⟨[(['a'], ⟨['a'], 1, ['d']⟩)], []⟩ ∧
    (consumeProduct ⟨[(['a'], ⟨['a'], 1, ['d']⟩)], []⟩ ['a'] 5).1
        = ⟨[(['a'], ⟨['a'], 1, ['d']⟩)], []⟩ :=
  ⟨(failing_ops_preserve_state _ _ _ ['d']).1 (by norm_num),
   (failing_ops_preserve_state _ _ _ ['d']).2.1 (by norm_num),
   (failing_ops_preserve_state _ _ _ ['d']).2.2.1 (by simp [lookupP]),
   (failing_ops_preserve_state _ _ _ ['d']).2.2.2 ⟨['a'], 1, ['d']⟩ (by simp [lookupP])
     (by norm_num)⟩

/-! ### Claim C6 -/

/-- C6: the exact error taxonomy of consume and insert — consume reports
the validation error exactly when the quantity is non-positive, the
not-found error exactly when the quantity is positive and the name absent,
the insufficient-quantity error exactly when the quantity is positive, the
name present and the stored quantity strictly smaller, and succeeds
otherwise; insert fails exactly when the quantity is non-positive. -/
theorem error_taxonomy (r : Refrigerator) (n : Str) (q : ℚ) (d : Str) :
    ((insertProduct r n q d).2 = InsRes.errNonPos ↔ q ≤ 0) ∧
    ((consumeProduct r n q).2 = ConRes.errNonPos ↔ q ≤ 0) ∧
    ((consumeProduct r n q).2 = ConRes.errNotFound ↔ 0 < q ∧ lookupP r.products n = none) ∧
    ((consumeProduct r n q).2 = ConRes.errNotEnough ↔
      0 < q ∧ ∃ p, lookupP r.products n = some p ∧ p.quantity < q) ∧
    ((consumeProduct r n q).2 = ConRes.ok ↔
      0 < q ∧ ∃ p, lookupP r.products n = some p ∧ q ≤ p.quantity) ∧
    ((insertProduct r n q d).2 = InsRes.ok ↔ 0 < q) := by
  by_cases hq : q ≤ 0
  · simp [insertProduct, consumeProduct, hq, not_lt.mpr hq]
  · have h0 : 0 < q := not_le.mp hq
    cases hp : lookupP r.products n with
    | none => simp [insertProduct, consumeProduct, hq, hp, h0]
    | some p =>
      by_cases hlt : p.quantity < q
      · simp [insertProduct, consumeProduct, hq, hp, hlt, h0, not_le.mpr hlt]
      · simp [insertProduct, consumeProduct, hq, hp, hlt, h0, not_lt.mp hlt]

/-! ### Claim C9 -/

/-- C9: the status, history and shopping-list queries are pure — each
leaves the refrigerator state (ledger and action log) exactly unchanged. -/
theorem queries_pure (r : Refrigerator) :
    (showStatus r).1 = r ∧ (showHistory r).1 = r ∧ (generateShoppingList r).1 = r :=
  ⟨rfl, rfl, rfl⟩

/-! ### Claim C10 -/

/-- C10: the expiration sweep never appends to the action log — the log
after a sweep equals the log before it, so the history listing and the
shopping-list aggregation are unaffected by the sweep. -/
theorem sweep_preserves_log (r : Refrigerator) (currentDate : Str) :
    ((checkExpirations r currentDate).1).history = r.history ∧
    (showHistory (checkExpirations r currentDate).1).2 = (showHistory r).2 ∧
    (generateShoppingList (checkExpirations r currentDate).1).2 =
      (generateShoppingList r).2 :=
  ⟨rfl, rfl, rfl⟩

/-! ### Claim C7 -/

theorem applyOp_history (r : Refrigerator) (op : Op) :
    (applyOp r op).history = r.history ++ logDelta r op := by
  cases op with
  | ins n q d =>
    by_cases hq : q ≤ 0
    · simp [applyOp, insertProduct, logDelta, hq, not_lt.mpr hq]
    · simp [applyOp, insertProduct, logDelta, hq, not_le.mp hq]
  | con n q =>
    by_cases hq : q ≤ 0
    · simp [applyOp, consumeProduct, logDelta, hq, not_lt.mpr hq]
    · cases hp : lookupP r.products n with
      | none => simp [applyOp, consumeProduct, logDelta, hq, hp, not_le.mp hq]
      | some p =>
        by_cases hlt : p.quantity < q
        · simp [applyOp, consumeProduct, logDelta, hq, hp, hlt, not_le.mp hq, not_le.mpr hlt]
        · simp [applyOp, consumeProduct, logDelta, hq, hp, hlt, not_le.mp hq, not_lt.mp hlt]
  | sweep d => simp [applyOp, checkExpirations, logDelta]
  | stat => simp [applyOp, showStatus, logDelta]
  | hist => simp [applyOp, showHistory, logDelta]
  | shop => simp [applyOp, generateShoppingList, logDelta]

/-- C7: the action log is append-only — every operation extends the log by
its (zero- or one-element) delta, a successful insert or consume appending
exactly one record and every other case appending nothing. -/
theorem history_append_only (r : Refrigerator) (op : Op) :
    (applyOp r op).history = r.history ++ logDelta r op ∧ (logDelta r op).length ≤ 1 := by
  refine ⟨applyOp_history r op, ?_⟩
  cases op with
  | ins n q d =>
    by_cases hq : 0 < q <;> simp [logDelta, hq]
  | con n q =>
    by_cases hq : 0 < q
    · cases hp : lookupP r.products n with
      | none => simp [logDelta, hq, hp]
      | some p =>
        by_cases hle : q ≤ p.quantity <;> simp [logDelta, hq, hp, hle]
    · simp [logDelta, hq]
  | sweep d => simp [logDelta]
  | stat => simp [logDelta]
  | hist => simp [logDelta]
  | shop => simp [logDelta]

/-! ### Claim C8 -/

theorem lookupP_eq_none_of_all_ne {ps : List (Str × Product)} {n : Str}
    (h : ∀ pr ∈ ps, pr.1 ≠ n) : lookupP ps n = none := by
  induction ps with
  | nil => rfl
  | cons hd tl ih =>
    obtain ⟨k, v⟩ := hd
    have hk : k ≠ n := h (k, v) (by simp)
    simp [lookupP, hk]
    exact ih fun pr hpr => h pr (List.mem_cons_of_mem _ hpr)

theorem applyOp_pos (r : Refrigerator) (op : Op)
    (h : ∀ pr ∈ r.products, 0 < pr.2.quantity) :
    ∀ pr ∈ (applyOp r op).products, 0 < pr.2.quantity := by
  cases op with
  | ins n q d =>
    by_cases hq : q ≤ 0
    · simpa [applyOp, insertProduct, hq] using h
    · have h0 : 0 < q := not_le.mp hq
      cases hp : lookupP r.products n with
      | none =>
        intro pr hpr
        simp [applyOp, insertProduct, hq, hp] at hpr
        rcases hpr with hpr | hpr
        · exact h pr hpr
        · simp [hpr, h0]
      | some p =>
        intro pr hpr
        simp [applyOp, insertProduct, hq, hp] at hpr
        rcases mem_updateP hpr with hm | hm
        · exact h pr hm
        · have hpq : 0 < p.quantity := h (n, p) (lookupP_mem hp)
          simp [hm]
          positivity
  | con n q =>
    by_cases hq : q ≤ 0
    · simpa [applyOp, consumeProduct, hq] using h
    · cases hp : lookupP r.products n with
      | none => simpa [applyOp, consumeProduct, hq, hp] using h
      | some p =>
        by_cases hlt : p.quantity < q
        · simpa [applyOp, consumeProduct, hq, hp, hlt] using h
        · intro pr hpr
          simp [applyOp, consumeProduct, hq, hp, hlt] at hpr
          by_cases hz : p.quantity - q = 0
          · rw [if_pos hz, eraseP_updateP] at hpr
            exact h pr (mem_eraseP hpr)
          · rw [if_neg hz] at hpr
            rcases mem_updateP hpr with hm | hm
            · exact h pr hm
            · have hle : q ≤ p.quantity := not_lt.mp hlt
              have hnn : (0 : ℚ) ≤ p.quantity - q := by linarith
              rw [hm]
              exact lt_of_le_of_ne hnn (Ne.symm hz)
  | sweep d =>
    intro pr hpr
    simp [applyOp, checkExpirations] at hpr
    exact h pr hpr.1
  | stat => simpa [applyOp, showStatus] using h
  | hist => simpa [applyOp, showHistory] using h
  | shop => simpa [applyOp, generateShoppingList] using h

/-- C8: in every state reachable from the empty refrigerator by menu
operations, every stored item has strictly positive quantity. -/
theorem reachable_quantities_pos (ops : List Op) :
    ∀ pr ∈ (runOps ops).products, 0 < pr.2.quantity := by
  have key : ∀ (l : List Op) (r : Refrigerator),
      (∀ pr ∈ r.products, 0 < pr.2.quantity) →
      ∀ pr ∈ (l.foldl applyOp r).products, 0 < pr.2.quantity := by
    intro l
    induction l with
    | nil => intro r h; simpa using h
    | cons op t ih =>
      intro r h
      exact ih (applyOp r op) (applyOp_pos r op h)
  exact key ops initFridge (by simp [initFridge])

/-- Witness for C8: the single item present after one concrete insertion
has positive quantity. -/
theorem reachable_quantities_pos_witness :
    0 < ((⟨['m'], 5, ['d']⟩ : Product)).quantity :=
  reachable_quantities_pos [Op.ins ['m'] 5 ['d']] (['m'], ⟨['m'], 5, ['d']⟩)
    (by norm_num [runOps, applyOp, insertProduct, initFridge, lookupP])

/-! ### Claim C2 -/

theorem lookup_insert_absent {r : Refrigerator} {n : Str} {q : ℚ} (d : Str)
    (h : lookupP r.products n = none) (hq : 0 < q) :
    lookupP ((insertProduct r n q d).1).products n = some ⟨n, q, d⟩ := by
  simp [insertProduct, not_le.mpr hq, h]
  rw [lookupP_append_of_none h]
  simp [lookupP]

theorem lookup_insert_present {r : Refrigerator} {n : Str} {q : ℚ} {p : Product} (d : Str)
    (h : lookupP r.products n = some p) (hq : 0 < q) :
    lookupP ((insertProduct r n q d).1).products n =
      some { p with quantity := p.quantity + q } := by
  simp [insertProduct, not_le.mpr hq, h]
  exact lookupP_updateP_self _ h

theorem insertMany_present {n : Str} :
    ∀ (l : List (ℚ × Str)) (r : Refrigerator) (p : Product),
      lookupP r.products n = some p → (∀ x ∈ l, 0 < x.1) →
      lookupP (insertMany r n l).products n =
        some { p with quantity := p.quantity + (l.map Prod.fst).sum } := by
  intro l
  induction l with
  | nil =>
    intro r p h _
    obtain ⟨pn, pq, pe⟩ := p
    simpa [insertMany] using h
  | cons x t ih =>
    intro r p h hpos
    obtain ⟨q1, d1⟩ := x
    have hq1 : 0 < q1 := hpos (q1, d1) (by simp)
    have step := lookup_insert_present d1 h hq1
    have tail := ih ((insertProduct r n q1 d1).1) _ step
      (fun y hy => hpos y (List.mem_cons_of_mem _ hy))
    obtain ⟨pn, pq, pe⟩ := p
    simp only [insertMany, List.foldl_cons] at tail ⊢
    rw [tail]
    simp [add_assoc]

/-- C2: starting from a ledger without the name, a non-empty sequence of
positive-quantity insertions of that name leaves it stored with the sum of
the inserted quantities and the expiration date of the first insertion. -/
theorem insert_accumulates (r : Refrigerator) (n : Str) (q1 : ℚ) (d1 : Str)
    (rest : List (ℚ × Str)) (habs : lookupP r.products n = none) (hq1 : 0 < q1)
    (hrest : ∀ x ∈ rest, 0 < x.1) :
    lookupP (insertMany r n ((q1, d1) :: rest)).products n =
      some ⟨n, (((q1, d1) :: rest).map Prod.fst).sum, d1⟩ := by
  have step := lookup_insert_absent d1 habs hq1
  have tail := insertMany_present rest ((insertProduct r n q1 d1).1) _ step hrest
  simp only [insertMany, List.foldl_cons] at tail ⊢
  rw [tail]
  simp

/-- Witness for C2: the milk scenario — inserting 2 then 3 under one name
stores quantity 5 with the first expiration date. -/
theorem insert_accumulates_witness :
    lookupP (insertMany initFridge ['m'] [(2, ['x']), (3, ['y'])]).products ['m'] =
      some ⟨['m'], 5, ['x']⟩ := by
  have h := insert_accumulates initFridge ['m'] 2 ['x'] [(3, ['y'])]
    (by simp [initFridge, lookupP]) (by norm_num) (by norm_num)
  norm_num at h
  exact h

/-! ### Claim C3 -/

/-- Well-formedness of the product map: keys occur at most once, and each
stored product's own name equals its key. -/
def WFProducts (ps : List (Str × Product)) : Prop :=
  List.Pairwise (fun a b => a.1 ≠ b.1) ps ∧ ∀ pr ∈ ps, pr.2.name = pr.1

theorem lookupP_eraseP_of_nodup {ps : List (Str × Product)} {n : Str}
    (h : List.Pairwise (fun a b => a.1 ≠ b.1) ps) : lookupP (eraseP ps n) n = none := by
  induction ps with
  | nil => rfl
  | cons hd tl ih =>
    obtain ⟨k, v⟩ := hd
    rcases List.pairwise_cons.mp h with ⟨hhd, htl⟩
    by_cases hk : k = n
    · subst hk
      simp [eraseP]
      exact lookupP_eq_none_of_all_ne fun pr hpr => (hhd pr hpr).symm
    · simp [eraseP, lookupP, hk]
      exact ih htl

theorem mem_eraseP_key_ne {ps : List (Str × Product)} {n : Str} {pr : Str × Product}
    (h : List.Pairwise (fun a b => a.1 ≠ b.1) ps) (hm : pr ∈ eraseP ps n) : pr.1 ≠ n := by
  induction ps with
  | nil => simp [eraseP] at hm
  | cons hd tl ih =>
    obtain ⟨k, v⟩ := hd
    rcases List.pairwise_cons.mp h with ⟨hhd, htl⟩
    by_cases hk : k = n
    · subst hk
      simp [eraseP] at hm
      exact fun hc => (hhd pr hm) (hc ▸ rfl)
    · simp [eraseP, hk] at hm
      rcases hm with hm | hm
      · simpa [hm] using hk
      · exact ih htl hm

/-- C3: a consume of a positive quantity bounded by the stored quantity
succeeds — it appends exactly one consumption record, subtracts the
requested quantity, and removes the item from the ledger exactly when the
resulting quantity is zero, in which case the name disappears from the
status enumeration. -/
theorem consume_success_spec (r : Refrigerator) (n : Str) (p : Product) (q : ℚ)
    (hwf : WFProducts r.products) (hl : lookupP r.products n = some p) (h0 : 0 < q)
    (hle : q ≤ p.quantity) :
    ((consumeProduct r n q).1).history = r.history ++ [renderCon q n] ∧
    (consumeProduct r n q).2 = ConRes.ok ∧
    (p.quantity - q ≠ 0 →
      lookupP ((consumeProduct r n q).1).products n =
        some { p with quantity := p.quantity - q }) ∧
    (p.quantity - q = 0 → lookupP ((consumeProduct r n q).1).products n = none) ∧
    (p.quantity - q = 0 → ∀ e ∈ (showStatus (consumeProduct r n q).1).2, e.1 ≠ n) := by
  have hq : ¬ q ≤ 0 := not_le.mpr h0
  have hlt : ¬ p.quantity < q := not_lt.mpr hle
  refine ⟨by simp [consumeProduct, hq, hl, hlt], by simp [consumeProduct, hq, hl, hlt],
    ?_, ?_, ?_⟩
  · intro hz
    simp [consumeProduct, hq, hl, hlt, hz]
    exact lookupP_updateP_self _ hl
  · intro hz
    simp [consumeProduct, hq, hl, hlt, hz, eraseP_updateP]
    exact lookupP_eraseP_of_nodup hwf.1
  · intro hz e he
    have hprod : ((consumeProduct r n q).1).products = eraseP r.products n := by
      simp [consumeProduct, hq, hl, hlt, hz, eraseP_updateP]
    rw [showStatus, hprod] at he
    simp only [List.mem_map] at he
    obtain ⟨pr, hpr, hpre⟩ := he
    have hkey : pr.1 ≠ n := mem_eraseP_key_ne hwf.1 hpr
    have hname : pr.2.name = pr.1 := hwf.2 pr (mem_eraseP hpr)
    rw [← hpre]
    simpa [hname] using hkey

/-- Witness for C3: the eggs scenario — consuming the full stored quantity
logs the consumption and removes the item. -/
theorem consume_success_spec_witness :
    ((consumeProduct ⟨[(['e'], ⟨['e'], 12, ['d']⟩)], []⟩ ['e'] 12).1).history =
      [] ++ [renderCon 12 ['e']] ∧
    lookupP ((consumeProduct ⟨[(['e'], ⟨['e'], 12, ['d']⟩)], []⟩ ['e'] 12).1).products ['e'] =
      none := by
  have h := consume_success_spec ⟨[(['e'], ⟨['e'], 12, ['d']⟩)], []⟩ ['e'] ⟨['e'], 12, ['d']⟩ 12
    (by constructor <;> simp [lookupP]) (by simp [lookupP]) (by norm_num) (by norm_num)
  exact ⟨h.1, h.2.2.2.1 (by norm_num)⟩

/-! ### Claim C4 -/

/-- Specification-side lexicographic order on strings: strictly smaller or
equal. -/
def strLe (a b : Str) : Prop := strLt a b = true ∨ a = b

theorem strLt_irrefl : ∀ a : Str, strLt a a = false := by
  intro a
  induction a with
  | nil => rfl
  | cons c as ih => simp [strLt, lt_irrefl, ih]

theorem strLt_asymm : ∀ a b : Str, strLt a b = true → strLt b a = false := by
  intro a
  induction a with
  | nil =>
    intro b hb
    cases b with
    | nil => simp [strLt] at hb
    | cons d bs => simp [strLt]
  | cons c as ih =>
    intro b hb
    cases b with
    | nil => simp [strLt] at hb
    | cons d bs =>
      by_cases h1 : c < d
      · have h2 : ¬ d < c := asymm h1
        simp [strLt, h1, h2]
      · by_cases h2 : d < c
        · simp [strLt, h1, h2] at hb
        · simp [strLt, h1, h2] at hb ⊢
          exact ih bs hb

theorem strLt_conn : ∀ a b : Str, strLt a b = false → strLt b a = false → a = b := by
  intro a
  induction a with
  | nil =>
    intro b hab hba
    cases b with
    | nil => rfl
    | cons d bs => simp [strLt] at hab
  | cons c as ih =>
    intro b hab hba
    cases b with
    | nil => simp [strLt] at hba
    | cons d bs =>
      by_cases h1 : c < d
      · simp [strLt, h1] at hab
      · by_cases h2 : d < c
        · simp [strLt, h1, h2] at hba
        · have hcd : c = d := le_antisymm (not_lt.mp h2) (not_lt.mp h1)
          simp [strLt, h1, h2] at hab hba
          subst hcd
          rw [ih bs hab (by simpa using hba)]

theorem strLe_iff (a b : Str) : strLe a b ↔ strLt b a = false := by
  constructor
  · rintro (h | rfl)
    · exact strLt_asymm a b h
    · exact strLt_irrefl a
  · intro h
    cases hab : strLt a b with
    | true => exact Or.inl hab
    | false => exact Or.inr (strLt_conn a b hab h)

/-- C4: the expiration sweep removes from the ledger exactly the items
whose stored expiration date is lexicographically at most the given current
date, keeps every later-dated item, and introduces nothing new. -/
theorem sweep_removes_exactly_expired (r : Refrigerator) (currentDate : Str) :
    (∀ pr ∈ r.products,
      (strLe pr.2.expirationDate currentDate →
        pr ∉ ((checkExpirations r currentDate).1).products) ∧
      (¬ strLe pr.2.expirationDate currentDate →
        pr ∈ ((checkExpirations r currentDate).1).products)) ∧
    (∀ pr ∈ ((checkExpirations r currentDate).1).products, pr ∈ r.products) := by
  have hmem : ∀ pr : Str × Product,
      (pr ∈ ((checkExpirations r currentDate).1).products ↔
        pr ∈ r.products ∧ strLt currentDate pr.2.expirationDate = true) := by
    intro pr
    simp [checkExpirations, List.mem_filter, isExpired]
  constructor
  · intro pr hpr
    constructor
    · intro hle hmem2
      have h2 := (hmem pr).mp hmem2
      rw [(strLe_iff _ _).mp hle] at h2
      simp at h2
    · intro hnle
      refine (hmem pr).mpr ⟨hpr, ?_⟩
      cases hlt : strLt currentDate pr.2.expirationDate with
      | true => rfl
      | false => exact absurd ((strLe_iff _ _).mpr hlt) hnle
  · intro pr hpr
    exact ((hmem pr).mp hpr).1

/-- Witness for C4 on a two-item ledger: the item dated at most the sweep
date is removed and the later-dated one is kept. -/
theorem sweep_removes_exactly_expired_witness :
    (['a'], (⟨['a'], 1, ['1']⟩ : Product)) ∉
      ((checkExpirations ⟨[(['a'], ⟨['a'], 1, ['1']⟩), (['b'], ⟨['b'], 1, ['3']⟩)], []⟩
        ['2']).1).products ∧
    (['b'], (⟨['b'], 1, ['3']⟩ : Product)) ∈
      ((checkExpirations ⟨[(['a'], ⟨['a'], 1, ['1']⟩), (['b'], ⟨['b'], 1, ['3']⟩)], []⟩
        ['2']).1).products := by
  have h := sweep_removes_exactly_expired
    ⟨[(['a'], ⟨['a'], 1, ['1']⟩), (['b'], ⟨['b'], 1, ['3']⟩)], []⟩ ['2']
  refine ⟨(h.1 (['a'], ⟨['a'], 1, ['1']⟩) (by simp)).1 (Or.inl (by decide)), ?_⟩
  refine (h.1 (['b'], ⟨['b'], 1, ['3']⟩) (by simp)).2 ?_
  intro hco
  rcases hco with hlt | heq
  · simp [strLt] at hlt
  · simp at heq

/-! ### Decimal rendering and parsing lemmas (towards claim C5) -/

theorem charVal_digitChar : ∀ d, d < 10 → charVal (digitChar d) = d := by decide

theorem digitChar_bounds : ∀ d, d < 10 →
    48 ≤ (digitChar d).toNat ∧ (digitChar d).toNat ≤ 57 := by decide

theorem natDigitsAux_fuel : ∀ f1 f2 n : ℕ, n < f1 → n < f2 →
    natDigitsAux f1 n = natDigitsAux f2 n := by
  intro f1
  induction f1 with
  | zero => omega
  | succ f ih =>
    intro f2 n h1 h2
    cases f2 with
    | zero => omega
    | succ g =>
      by_cases h10 : n < 10
      · simp [natDigitsAux, h10]
      · simp only [natDigitsAux, h10, if_false]
        rw [ih g (n / 10) (by omega) (by omega)]

theorem natDigits_eq (n : ℕ) :
    natDigits n = if n < 10 then [digitChar n] else natDigits (n / 10) ++ [digitChar (n % 10)] := by
  by_cases h : n < 10
  · simp [natDigits, natDigitsAux, h]
  · show natDigitsAux (n + 1) n = _
    simp only [natDigitsAux, h, if_false]
    rw [natDigitsAux_fuel n (n / 10 + 1) (n / 10) (by omega) (by omega)]
    rfl

theorem natDigits_ne_nil (n : ℕ) : natDigits n ≠ [] := by
  rw [natDigits_eq]
  by_cases h : n < 10 <;> simp [h]

theorem natDigits_chars : ∀ n : ℕ, ∀ c ∈ natDigits n, 48 ≤ c.toNat ∧ c.toNat ≤ 57 := by
  intro n
  induction n using Nat.strong_induction_on with
  | _ n ih =>
    intro c hc
    rw [natDigits_eq] at hc
    by_cases h : n < 10
    · rw [if_pos h] at hc
      simp at hc
      exact hc ▸ digitChar_bounds n h
    · rw [if_neg h] at hc
      rcases List.mem_append.mp hc with hm | hm
      · exact ih (n / 10) (by omega) c hm
      · simp at hm
        exact hm ▸ digitChar_bounds (n % 10) (by omega)

theorem digitsToNat_append_singleton (l : Str) (c : Char) :
    digitsToNat (l ++ [c]) = digitsToNat l * 10 + charVal c := by
  simp [digitsToNat, List.foldl_append]

theorem digitsToNat_natDigits : ∀ n : ℕ, digitsToNat (natDigits n) = n := by
  intro n
  induction n using Nat.strong_induction_on with
  | _ n ih =>
    rw [natDigits_eq]
    by_cases h : n < 10
    · rw [if_pos h]
      have := charVal_digitChar n h
      simp [digitsToNat, this]
    · rw [if_neg h]
      rw [digitsToNat_append_singleton, ih (n / 10) (by omega),
        charVal_digitChar (n % 10) (by omega)]
      omega

theorem natDigits_len : ∀ k : ℕ, ∀ n < 10 ^ (k + 1), (natDigits n).length ≤ k + 1 := by
  intro k
  induction k with
  | zero =>
    intro n hn
    rw [natDigits_eq]
    simp at hn
    simp [hn]
  | succ k ih =>
    intro n hn
    rw [natDigits_eq]
    by_cases h : n < 10
    · simp [h]
    · rw [if_neg h]
      have hdiv : n / 10 < 10 ^ (k + 1) := by
        rw [Nat.div_lt_iff_lt_mul (by norm_num)]
        calc n < 10 ^ (k + 1 + 1) := hn
        _ = 10 ^ (k + 1) * 10 := by ring
      have := ih (n / 10) hdiv
      simp only [List.length_append, List.length_cons, List.length_nil]
      omega

theorem foldl_digit_replicate_zero (k : ℕ) :
    List.foldl (fun a c => a * 10 + charVal c) 0 (List.replicate k '0') = 0 := by
  induction k with
  | zero => rfl
  | succ k ih =>
    rw [List.replicate_succ, List.foldl_cons]
    simpa [charVal] using ih

theorem digitsToNat_replicate_zero (k : ℕ) (l : Str) :
    digitsToNat (List.replicate k '0' ++ l) = digitsToNat l := by
  simp [digitsToNat, List.foldl_append, foldl_digit_replicate_zero]

theorem pad6_len {m : ℕ} (hm : m < 1000000) : (pad6 m).length = 6 := by
  have hlen : (natDigits m).length ≤ 6 := by
    have := natDigits_len 5 m (by norm_num; omega)
    omega
  simp [pad6]
  omega

theorem digitsToNat_pad6 (m : ℕ) : digitsToNat (pad6 m) = m := by
  rw [pad6, digitsToNat_replicate_zero, digitsToNat_natDigits]

theorem pad6_chars : ∀ m : ℕ, ∀ c ∈ pad6 m, 48 ≤ c.toNat ∧ c.toNat ≤ 57 := by
  intro m c hc
  rcases List.mem_append.mp hc with hm | hm
  · have : c = '0' := List.eq_of_mem_replicate hm
    subst this
    decide
  · exact natDigits_chars m c hm

theorem natPart_chars : ∀ m : ℕ, ∀ c ∈ natPart m,
    (48 ≤ c.toNat ∧ c.toNat ≤ 57) ∨ c = '.' := by
  intro m c hc
  rcases List.mem_append.mp hc with hm | hm
  · exact Or.inl (natDigits_chars _ c hm)
  · rcases List.mem_cons.mp hm with hm | hm
    · exact Or.inr hm
    · exact Or.inl (pad6_chars _ c hm)

theorem natPart_shape (m : ℕ) : ∃ c cs, natPart m = c :: cs ∧ 48 ≤ c.toNat ∧ c.toNat ≤ 57 := by
  cases hd : natDigits (m / 1000000) with
  | nil => exact absurd hd (natDigits_ne_nil _)
  | cons c cs =>
    have hb := natDigits_chars (m / 1000000) c (by rw [hd]; exact List.mem_cons_self c cs)
    exact ⟨c, cs ++ '.' :: pad6 (m % 1000000), by simp [natPart, hd], hb.1, hb.2⟩

theorem round6_kdiv (k : ℕ) : round6 ((k : ℚ) / 1000000) = k := by
  have h1 : ((k : ℚ) / 1000000) * 1000000 = (k : ℚ) := by field_simp
  rw [round6, h1]
  have h2 : (k : ℚ) + 1 / 2 = 1 / 2 + (k : ℕ) := by ring
  have h3 : ⌊(1 : ℚ) / 2⌋ = 0 := by norm_num [Int.floor_eq_iff]
  rw [h2, Int.floor_add_nat, h3]
  simp

theorem to6dp_kdiv (k : ℕ) : to6dp ((k : ℚ) / 1000000) = natPart k := by
  rw [to6dp, round6_kdiv]
  simp

theorem takeWhile_all_append (p : Char → Bool) :
    ∀ (l : Str) (x : Char) (t : Str), (∀ c ∈ l, p c = true) → p x = false →
      (l ++ x :: t).takeWhile p = l := by
  intro l
  induction l with
  | nil =>
    intro x t _ hx
    simp [List.takeWhile_cons, hx]
  | cons c cs ih =>
    intro x t hl hx
    have hc : p c = true := hl c (by simp)
    simp only [List.cons_append, List.takeWhile_cons, hc, if_true]
    rw [ih x t (fun d hd => hl d (by simp [hd])) hx]

theorem dropWhile_all_append (p : Char → Bool) :
    ∀ (l : Str) (x : Char) (t : Str), (∀ c ∈ l, p c = true) → p x = false →
      (l ++ x :: t).dropWhile p = x :: t := by
  intro l
  induction l with
  | nil =>
    intro x t _ hx
    simp [List.dropWhile_cons, hx]
  | cons c cs ih =>
    intro x t hl hx
    have hc : p c = true := hl c (by simp)
    simp only [List.cons_append, List.dropWhile_cons, hc, if_true]
    exact ih x t (fun d hd => hl d (by simp [hd])) hx

theorem digit_not_dot {c : Char} (hb : 48 ≤ c.toNat ∧ c.toNat ≤ 57) :
    (!(c == '.')) = true := by
  have hne : c ≠ '.' := by
    intro hEq
    rw [hEq] at hb
    exact absurd hb (by decide)
  simp [hne]

theorem parsePos_natPart (k : ℕ) : parsePos (natPart k) = (k : ℚ) / 1000000 := by
  have hmod : k % 1000000 < 1000000 := Nat.mod_lt _ (by norm_num)
  have hdigits : ∀ c ∈ natDigits (k / 1000000), (fun c => !(c == '.')) c = true := by
    intro c hc
    exact digit_not_dot (natDigits_chars _ c hc)
  have hdot : (fun c => !(c == '.')) '.' = false := by decide
  have htake : (natPart k).takeWhile (fun c => !(c == '.')) = natDigits (k / 1000000) :=
    takeWhile_all_append _ _ _ _ hdigits hdot
  have hdrop : (natPart k).dropWhile (fun c => !(c == '.')) = '.' :: pad6 (k % 1000000) :=
    dropWhile_all_append _ _ _ _ hdigits hdot
  simp only [parsePos, hdrop, htake]
  rw [digitsToNat_natDigits, digitsToNat_pad6, pad6_len hmod]
  have hk : (k : ℚ) = 1000000 * ((k / 1000000 : ℕ) : ℚ) + ((k % 1000000 : ℕ) : ℚ) := by
    exact_mod_cast (Nat.div_add_mod k 1000000).symm
  have h6 : ((10 : ℚ) ^ 6) = 1000000 := by norm_num
  rw [h6, eq_div_iff (by norm_num : (1000000 : ℚ) ≠ 0), add_mul, div_mul_cancel₀]
  · linarith [hk]
  · norm_num

theorem stodM_natPart (k : ℕ) : stodM (natPart k) = parsePos (natPart k) := by
  obtain ⟨c, cs, hEq, hb1, hb2⟩ := natPart_shape k
  rw [hEq]
  have hne : c ≠ '-' := by
    intro h
    rw [h] at hb1
    exact absurd hb1 (by decide)
  simp only [stodM, if_neg hne]

theorem stodM_to6dp_kdiv (k : ℕ) :
    stodM (to6dp ((k : ℚ) / 1000000)) = (k : ℚ) / 1000000 := by
  rw [to6dp_kdiv, stodM_natPart, parsePos_natPart]

/-! ### Locating the separators inside rendered log records -/

theorem isPrefixL_append_self : ∀ (p s : Str), isPrefixL p (p ++ s) = true := by
  intro p
  induction p with
  | nil => intro s; rfl
  | cons c cs ih => intro s; simp [isPrefixL, ih]

theorem isPrefixL_cons_ne {p : Char} {ps : Str} {c : Char} {s : Str} (h : p ≠ c) :
    isPrefixL (p :: ps) (c :: s) = false := by
  simp [isPrefixL, h]

theorem strFind_cons_pos {pat : Str} {c : Char} {s : Str}
    (h : isPrefixL pat (c :: s) = true) : strFind pat (c :: s) = some 0 := by
  simp [strFind, h]

theorem strFind_cons_neg {pat : Str} {c : Char} {s : Str}
    (h : isPrefixL pat (c :: s) = false) :
    strFind pat (c :: s) = (strFind pat s).map (· + 1) := by
  simp [strFind, h]

theorem strFind_append_self (c : Char) (pat s : Str) :
    strFind (c :: pat) ((c :: pat) ++ s) = some 0 :=
  strFind_cons_pos (isPrefixL_append_self _ _)

theorem containsSub_cons_self (c : Char) (pat s : Str) :
    containsSub (c :: pat) ((c :: pat) ++ s) = true := by
  rw [containsSub, strFind_append_self]
  rfl

theorem strFind_none_prepend : ∀ (pre : Str) (p : Char) (ps s : Str),
    (∀ c ∈ pre, c ≠ p) → strFind (p :: ps) s = none → strFind (p :: ps) (pre ++ s) = none := by
  intro pre
  induction pre with
  | nil => intro p ps s _ h; simpa using h
  | cons c t ih =>
    intro p ps s hpre h
    have hc : c ≠ p := hpre c (by simp)
    have hp : isPrefixL (p :: ps) (c :: (t ++ s)) = false := isPrefixL_cons_ne (Ne.symm hc)
    rw [List.cons_append, strFind_cons_neg hp, ih p ps s (fun d hd => hpre d (by simp [hd])) h]
    rfl

theorem strFind_ofSep_num : ∀ (num : Str), (∀ c ∈ num, c ≠ ' ') → ∀ n : Str,
    strFind ofSep (num ++ ofSep ++ n) = some num.length := by
  intro num
  induction num with
  | nil =>
    intro _ n
    simp [ofSep, strFind, isPrefixL]
  | cons c cs ih =>
    intro h n
    have hc : c ≠ ' ' := h c (by simp)
    have hpre : isPrefixL ofSep (c :: ((cs ++ ofSep) ++ n)) = false := by
      have hs : (' ' : Char) ≠ c := Ne.symm hc
      simpa [ofSep] using @isPrefixL_cons_ne ' ' ['o', 'f', ' '] c ((cs ++ ofSep) ++ n) hs
    rw [List.cons_append, List.cons_append, strFind_cons_neg hpre,
      ih (fun d hd => h d (by simp [hd])) n]
    simp

theorem strFind_ofSep_entry : ∀ (tag : Str), (∀ c ∈ tag, c ≠ ' ') →
    ∀ (m : Char) (ms : Str) (n : Str), m ≠ 'o' → (∀ c ∈ m :: ms, c ≠ ' ') →
    strFind ofSep (tag ++ ' ' :: ((m :: ms) ++ ofSep ++ n)) =
      some (tag.length + 1 + (m :: ms).length) := by
  intro tag
  induction tag with
  | nil =>
    intro _ m ms n hm hnum
    have hpre : isPrefixL ofSep (' ' :: ((m :: ms) ++ ofSep ++ n)) = false := by
      have ho : ('o' : Char) ≠ m := Ne.symm hm
      simp [ofSep, isPrefixL, ho]
    rw [List.nil_append, strFind_cons_neg hpre, strFind_ofSep_num (m :: ms) hnum n]
    simp [Nat.add_comm]
  | cons c ts ih =>
    intro h m ms n hm hnum
    have hc : c ≠ ' ' := h c (by simp)
    have hpre : isPrefixL ofSep (c :: (ts ++ ' ' :: ((m :: ms) ++ ofSep ++ n))) = false := by
      have hs : (' ' : Char) ≠ c := Ne.symm hc
      simpa [ofSep] using
        @isPrefixL_cons_ne ' ' ['o', 'f', ' '] c (ts ++ ' ' :: ((m :: ms) ++ ofSep ++ n)) hs
    rw [List.cons_append, strFind_cons_neg hpre,
      ih (fun d hd => h d (by simp [hd])) m ms n hm hnum]
    simp [Nat.add_comm, Nat.add_assoc, Nat.add_left_comm]

theorem strFind_space_entry : ∀ (tag : Str), (∀ c ∈ tag, c ≠ ' ') → ∀ rest : Str,
    strFind [' '] (tag ++ ' ' :: rest) = some tag.length := by
  intro tag
  induction tag with
  | nil => intro _ rest; simp [strFind, isPrefixL]
  | cons c ts ih =>
    intro h rest
    have hc : c ≠ ' ' := h c (by simp)
    have hpre : isPrefixL [' '] (c :: (ts ++ ' ' :: rest)) = false :=
      isPrefixL_cons_ne (Ne.symm hc)
    rw [List.cons_append, strFind_cons_neg hpre, ih (fun d hd => h d (by simp [hd])) rest]
    simp

/-! ### Character classes of rendered numerals -/

theorem to6dp_chars : ∀ (q : ℚ), ∀ c ∈ to6dp q,
    (48 ≤ c.toNat ∧ c.toNat ≤ 57) ∨ c = '.' ∨ c = '-' := by
  intro q c hc
  rw [to6dp] at hc
  by_cases h : round6 q < 0
  · rw [if_pos h] at hc
    rcases List.mem_cons.mp hc with hm | hm
    · exact Or.inr (Or.inr hm)
    · rcases natPart_chars _ c hm with h2 | h2
      · exact Or.inl h2
      · exact Or.inr (Or.inl h2)
  · rw [if_neg h] at hc
    rcases natPart_chars _ c hc with h2 | h2
    · exact Or.inl h2
    · exact Or.inr (Or.inl h2)

theorem numeral_ne_space {c : Char}
    (h : (48 ≤ c.toNat ∧ c.toNat ≤ 57) ∨ c = '.' ∨ c = '-') : c ≠ ' ' := by
  rcases h with h | h | h
  · intro hEq; rw [hEq] at h; exact absurd h (by decide)
  · subst h; decide
  · subst h; decide

theorem numeral_ne_C {c : Char}
    (h : (48 ≤ c.toNat ∧ c.toNat ≤ 57) ∨ c = '.' ∨ c = '-') : c ≠ 'C' := by
  rcases h with h | h | h
  · intro hEq; rw [hEq] at h; exact absurd h (by decide)
  · subst h; decide
  · subst h; decide

theorem digit_ne_o {c : Char} (h : 48 ≤ c.toNat ∧ c.toNat ≤ 57) : c ≠ 'o' := by
  intro hEq
  rw [hEq] at h
  exact absurd h (by decide)

theorem ofSep_ne_C : ∀ c ∈ ofSep, c ≠ 'C' := by decide

theorem insTag_ne_C : ∀ c ∈ insTag, c ≠ 'C' := by decide

theorem conTag_ne_space : ∀ c ∈ conTag, c ≠ ' ' := by decide

theorem containsSub_renderCon (q : ℚ) (n : Str) : containsSub conTag (renderCon q n) = true :=
  containsSub_cons_self 'C' ['o', 'n', 's', 'u', 'm', 'e', 'd'] (' ' :: (to6dp q ++ ofSep ++ n))

theorem containsSub_renderIns (q : ℚ) (n : Str) (hn : containsSub conTag n = false) :
    containsSub conTag (renderIns q n) = false := by
  have hfind : strFind conTag n = none := by
    cases hf : strFind conTag n with
    | none => rfl
    | some v => rw [containsSub, hf] at hn; simp at hn
  have hpre : ∀ c ∈ insTag ++ ' ' :: (to6dp q ++ ofSep), c ≠ 'C' := by
    intro c hc
    rcases List.mem_append.mp hc with hm | hm
    · exact insTag_ne_C c hm
    · rcases List.mem_cons.mp hm with hm | hm
      · subst hm; decide
      · rcases List.mem_append.mp hm with hm | hm
        · exact numeral_ne_C (to6dp_chars q c hm)
        · exact ofSep_ne_C c hm
  have hnone := strFind_none_prepend (insTag ++ ' ' :: (to6dp q ++ ofSep)) 'C'
    ['o', 'n', 's', 'u', 'm', 'e', 'd'] n hpre hfind
  have hshape : renderIns q n = (insTag ++ ' ' :: (to6dp q ++ ofSep)) ++ n := by
    simp [renderIns]
  rw [containsSub, hshape]
  rw [show strFind conTag ((insTag ++ ' ' :: (to6dp q ++ ofSep)) ++ n) =
    strFind ('C' :: ['o', 'n', 's', 'u', 'm', 'e', 'd'])
      ((insTag ++ ' ' :: (to6dp q ++ ofSep)) ++ n) from rfl]
  rw [hnone]
  rfl

theorem shoppingStep_renderIns (m : List (Str × ℚ)) (q : ℚ) (n : Str)
    (hn : containsSub conTag n = false) : shoppingStep m (renderIns q n) = m := by
  rw [shoppingStep, containsSub_renderIns q n hn]
  simp

theorem shoppingStep_renderCon (m : List (Str × ℚ)) (q : ℚ) (n : Str) (hq : 0 ≤ round6 q) :
    shoppingStep m (renderCon q n) = bumpKey m n (stodM (to6dp q)) := by
  obtain ⟨c, cs, hEq, hb1, hb2⟩ := natPart_shape (round6 q).toNat
  have hto : to6dp q = c :: cs := by
    rw [to6dp, if_neg (not_lt.mpr hq), hEq]
  have hchars : ∀ x ∈ c :: cs, (48 ≤ x.toNat ∧ x.toNat ≤ 57) ∨ x = '.' ∨ x = '-' := by
    rw [← hto]; exact to6dp_chars q
  have hnsp : ∀ x ∈ c :: cs, x ≠ ' ' := fun x hx => numeral_ne_space (hchars x hx)
  have hno : c ≠ 'o' := digit_ne_o ⟨hb1, hb2⟩
  have hentry : renderCon q n = conTag ++ ' ' :: ((c :: cs) ++ ofSep ++ n) := by
    rw [renderCon, hto]
  have hofind : strFind ofSep (conTag ++ ' ' :: ((c :: cs) ++ ofSep ++ n)) =
      some (10 + cs.length) := by
    rw [strFind_ofSep_entry conTag conTag_ne_space c cs n hno hnsp]
    have h1 : conTag.length = 8 := rfl
    rw [h1]
    congr 1
    simp only [List.length_cons]
    omega
  have hsfind : strFind [' '] (conTag ++ ' ' :: ((c :: cs) ++ ofSep ++ n)) = some 8 := by
    rw [strFind_space_entry conTag conTag_ne_space]
    rfl
  have hcont : containsSub conTag (conTag ++ ' ' :: ((c :: cs) ++ ofSep ++ n)) = true :=
    containsSub_cons_self 'C' ['o', 'n', 's', 'u', 'm', 'e', 'd'] _
  have hdrop9 : (conTag ++ ' ' :: ((c :: cs) ++ ofSep ++ n)).drop 9 =
      (c :: cs) ++ ofSep ++ n := by
    rw [show conTag ++ ' ' :: ((c :: cs) ++ ofSep ++ n) =
      (conTag ++ [' ']) ++ ((c :: cs) ++ ofSep ++ n) by simp]
    have h9 : (9 : ℕ) = (conTag ++ [' ']).length := by decide
    rw [h9, List.drop_left]
  have hB : List.take (10 + cs.length - (8 + 1))
      (List.drop (8 + 1) (conTag ++ ' ' :: ((c :: cs) ++ ofSep ++ n))) = to6dp q := by
    show List.take (10 + cs.length - 9) (List.drop 9 (conTag ++ ' ' :: ((c :: cs) ++ ofSep ++ n)))
      = to6dp q
    rw [hdrop9]
    have hl : 10 + cs.length - 9 = (c :: cs).length := by
      simp only [List.length_cons]
      omega
    rw [hl, List.append_assoc, List.take_left, hto]
  have hdropName : (conTag ++ ' ' :: ((c :: cs) ++ ofSep ++ n)).drop (10 + cs.length + 4) =
      n := by
    rw [show conTag ++ ' ' :: ((c :: cs) ++ ofSep ++ n) =
      ((conTag ++ [' ']) ++ (c :: cs) ++ ofSep) ++ n by simp]
    have hl : 10 + cs.length + 4 = ((conTag ++ [' ']) ++ (c :: cs) ++ ofSep).length := by
      simp [conTag, ofSep]
      omega
    rw [hl, List.drop_left]
  rw [hentry, shoppingStep, hcont, hofind, hsfind]
  simp only [if_true]
  rw [hB, hdropName]

/-! ### Relating the shopping list to the successful consumptions of a run -/

/-- The records appended to the history along a run, in order. -/
def histDeltas (r : Refrigerator) : List Op → List Str
  | [] => []
  | op :: t => logDelta r op ++ histDeltas (applyOp r op) t

/-- Specification-side trace of the successful consume operations of a
run: each consume that succeeds at its point of execution contributes its
(name, quantity) pair, in execution order. -/
def consumesOf (r : Refrigerator) : List Op → List (Str × ℚ)
  | [] => []
  | Op.con n q :: t =>
    (match lookupP r.products n with
     | some p => if 0 < q ∧ q ≤ p.quantity then [(n, q)] else []
     | none => []) ++ consumesOf (applyOp r (Op.con n q)) t
  | op :: t => consumesOf (applyOp r op) t

/-- Aggregation of a (name, quantity) trace by the map-accumulation used in
the shopping-list generator. -/
def aggregate (l : List (Str × ℚ)) : List (Str × ℚ) :=
  l.foldl (fun m x => bumpKey m x.1 x.2) []

/-- Lookup in the aggregation map. -/
def lookupQ : List (Str × ℚ) → Str → Option ℚ
  | [], _ => none
  | (k, v) :: rest, n => if k = n then some v else lookupQ rest n

/-- The item name carried by an operation, when there is one. -/
def opName : Op → Option Str
  | Op.ins n _ _ => some n
  | Op.con n _ => some n
  | _ => none

theorem foldl_applyOp_history : ∀ (ops : List Op) (r : Refrigerator),
    (ops.foldl applyOp r).history = r.history ++ histDeltas r ops := by
  intro ops
  induction ops with
  | nil => intro r; simp [histDeltas]
  | cons op t ih =>
    intro r
    rw [List.foldl_cons, ih, applyOp_history]
    simp [histDeltas]

theorem shoppingFold_histDeltas : ∀ (ops : List Op) (r : Refrigerator) (m : List (Str × ℚ)),
    (∀ op ∈ ops, ∀ n, opName op = some n → containsSub conTag n = false) →
    (∀ op ∈ ops, ∀ n q, op = Op.con n q → (∃ k : ℕ, q = (k : ℚ) / 1000000) ∨ q ≤ 0) →
    List.foldl shoppingStep m (histDeltas r ops) =
      List.foldl (fun acc x => bumpKey acc x.1 x.2) m (consumesOf r ops) := by
  intro ops
  induction ops with
  | nil => intro r m _ _; rfl
  | cons op t ih =>
    intro r m h1 h2
    have h1t : ∀ op2 ∈ t, ∀ n, opName op2 = some n → containsSub conTag n = false :=
      fun op2 hop => h1 op2 (List.mem_cons_of_mem _ hop)
    have h2t : ∀ op2 ∈ t, ∀ n q, op2 = Op.con n q →
        (∃ k : ℕ, q = (k : ℚ) / 1000000) ∨ q ≤ 0 :=
      fun op2 hop => h2 op2 (List.mem_cons_of_mem _ hop)
    cases op with
    | ins n q d =>
      have hname : containsSub conTag n = false := h1 (Op.ins n q d) (by simp) n rfl
      rw [show histDeltas r (Op.ins n q d :: t) =
        logDelta r (Op.ins n q d) ++ histDeltas (applyOp r (Op.ins n q d)) t from rfl]
      rw [List.foldl_append]
      rw [show consumesOf r (Op.ins n q d :: t) =
        consumesOf (applyOp r (Op.ins n q d)) t from rfl]
      by_cases hq : 0 < q
      · rw [show logDelta r (Op.ins n q d) = [renderIns q n] from by simp [logDelta, hq]]
        rw [show List.foldl shoppingStep m [renderIns q n] =
          shoppingStep m (renderIns q n) from rfl]
        rw [shoppingStep_renderIns m q n hname]
        exact ih _ _ h1t h2t
      · rw [show logDelta r (Op.ins n q d) = [] from by simp [logDelta, hq]]
        exact ih _ _ h1t h2t
    | con n q =>
      rw [show histDeltas r (Op.con n q :: t) =
        logDelta r (Op.con n q) ++ histDeltas (applyOp r (Op.con n q)) t from rfl]
      rw [List.foldl_append]
      rw [show consumesOf r (Op.con n q :: t) =
        (match lookupP r.products n with
         | some p => if 0 < q ∧ q ≤ p.quantity then [(n, q)] else []
         | none => []) ++ consumesOf (applyOp r (Op.con n q)) t from rfl]
      cases hp : lookupP r.products n with
      | none =>
        have hld : logDelta r (Op.con n q) = [] := by
          by_cases hq : 0 < q <;> simp [logDelta, hq, hp]
        rw [hld]
        simpa using ih _ _ h1t h2t
      | some p =>
        by_cases hcond : 0 < q ∧ q ≤ p.quantity
        · have hld : logDelta r (Op.con n q) = [renderCon q n] := by
            simp [logDelta, hp, hcond.1, hcond.2]
          have hq0 : 0 ≤ round6 q := by
            rw [round6]
            apply Int.floor_nonneg.mpr
            have hmul : 0 ≤ q * 1000000 := mul_nonneg (le_of_lt hcond.1) (by norm_num)
            linarith
          have hstod : stodM (to6dp q) = q := by
            rcases h2 (Op.con n q) (by simp) n q rfl with hfmt | hfmt
            · obtain ⟨k, hk⟩ := hfmt
              rw [hk]
              exact stodM_to6dp_kdiv k
            · exact absurd hcond.1 (not_lt.mpr hfmt)
          rw [hld]
          rw [show List.foldl shoppingStep m [renderCon q n] =
            shoppingStep m (renderCon q n) from rfl]
          rw [shoppingStep_renderCon m q n hq0, hstod]
          simpa [hcond.1, hcond.2] using ih (applyOp r (Op.con n q)) (bumpKey m n q) h1t h2t
        · have hld : logDelta r (Op.con n q) = [] := by
            by_cases hq : 0 < q
            · have hnle : ¬ q ≤ p.quantity := fun hle => hcond ⟨hq, hle⟩
              simp [logDelta, hq, hp, hnle]
            · simp [logDelta, hq]
          rw [hld]
          simpa [hcond] using ih (applyOp r (Op.con n q)) m h1t h2t
    | sweep d =>
      rw [show histDeltas r (Op.sweep d :: t) =
        logDelta r (Op.sweep d) ++ histDeltas (applyOp r (Op.sweep d)) t from rfl]
      rw [show logDelta r (Op.sweep d) = [] from rfl]
      rw [show consumesOf r (Op.sweep d :: t) =
        consumesOf (applyOp r (Op.sweep d)) t from rfl]
      exact ih _ _ h1t h2t
    | stat =>
      rw [show histDeltas r (Op.stat :: t) =
        logDelta r Op.stat ++ histDeltas (applyOp r Op.stat) t from rfl]
      rw [show logDelta r Op.stat = [] from rfl]
      rw [show consumesOf r (Op.stat :: t) = consumesOf (applyOp r Op.stat) t from rfl]
      exact ih _ _ h1t h2t
    | hist =>
      rw [show histDeltas r (Op.hist :: t) =
        logDelta r Op.hist ++ histDeltas (applyOp r Op.hist) t from rfl]
      rw [show logDelta r Op.hist = [] from rfl]
      rw [show consumesOf r (Op.hist :: t) = consumesOf (applyOp r Op.hist) t from rfl]
      exact ih _ _ h1t h2t
    | shop =>
      rw [show histDeltas r (Op.shop :: t) =
        logDelta r Op.shop ++ histDeltas (applyOp r Op.shop) t from rfl]
      rw [show logDelta r Op.shop = [] from rfl]
      rw [show consumesOf r (Op.shop :: t) = consumesOf (applyOp r Op.shop) t from rfl]
      exact ih _ _ h1t h2t

/-- Total quantity recorded for one name in a (name, quantity) trace. -/
def sumFor (l : List (Str × ℚ)) (n : Str) : ℚ :=
  ((l.filter fun x => x.1 = n).map Prod.snd).sum

theorem lookupQ_bumpKey : ∀ (m : List (Str × ℚ)) (k : Str) (v : ℚ) (n : Str),
    lookupQ (bumpKey m k v) n =
      if k = n then
        (match lookupQ m n with
         | some w => some (w + v)
         | none => some v)
      else lookupQ m n := by
  intro m
  induction m with
  | nil =>
    intro k v n
    by_cases hk : k = n <;> simp [bumpKey, lookupQ, hk]
  | cons hd rest ih =>
    intro k v n
    obtain ⟨k2, v2⟩ := hd
    by_cases h2 : k2 = k
    · subst h2
      by_cases hn : k2 = n
      · subst hn
        simp [bumpKey, lookupQ]
      · simp [bumpKey, lookupQ, hn]
    · by_cases hn : k2 = n
      · subst hn
        have hkn : k ≠ k2 := fun h => h2 h.symm
        simp [bumpKey, lookupQ, h2, hkn]
      · simp [bumpKey, lookupQ, h2, hn, ih]

theorem mem_keys_bumpKey : ∀ (m : List (Str × ℚ)) (k : Str) (v : ℚ) (n : Str),
    (n ∈ (bumpKey m k v).map Prod.fst ↔ n = k ∨ n ∈ m.map Prod.fst) := by
  intro m
  induction m with
  | nil =>
    intro k v n
    simp [bumpKey]
  | cons hd rest ih =>
    intro k v n
    obtain ⟨k2, v2⟩ := hd
    by_cases h2 : k2 = k
    · subst h2
      simp [bumpKey]
    · simp [bumpKey, h2, ih]
      tauto

theorem pairwise_bumpKey : ∀ (m : List (Str × ℚ)) (k : Str) (v : ℚ),
    List.Pairwise (fun a b => a.1 ≠ b.1) m →
    List.Pairwise (fun a b => a.1 ≠ b.1) (bumpKey m k v) := by
  intro m
  induction m with
  | nil => intro k v _; simp [bumpKey]
  | cons hd rest ih =>
    intro k v h
    obtain ⟨k2, v2⟩ := hd
    rcases List.pairwise_cons.mp h with ⟨hhd, hrest⟩
    by_cases h2 : k2 = k
    · subst h2
      rw [show bumpKey ((k2, v2) :: rest) k2 v = (k2, v2 + v) :: rest from by simp [bumpKey]]
      exact List.pairwise_cons.mpr ⟨hhd, hrest⟩
    · rw [show bumpKey ((k2, v2) :: rest) k v = (k2, v2) :: bumpKey rest k v from by
        simp [bumpKey, h2]]
      refine List.pairwise_cons.mpr ⟨?_, ih k v hrest⟩
      intro b hb
      have hbk : b.1 = k ∨ b.1 ∈ rest.map Prod.fst :=
        (mem_keys_bumpKey rest k v b.1).mp (List.mem_map_of_mem Prod.fst hb)
      rcases hbk with hbk | hbm
      · rw [hbk]
        exact h2
      · obtain ⟨x, hx, hxe⟩ := List.mem_map.mp hbm
        rw [← hxe]
        exact hhd x hx

theorem mem_iff_lookupQ : ∀ {l : List (Str × ℚ)},
    List.Pairwise (fun a b => a.1 ≠ b.1) l →
    ∀ (n : Str) (v : ℚ), ((n, v) ∈ l ↔ lookupQ l n = some v) := by
  intro l
  induction l with
  | nil => intro _ n v; simp [lookupQ]
  | cons hd rest ih =>
    intro h n v
    obtain ⟨k2, v2⟩ := hd
    rcases List.pairwise_cons.mp h with ⟨hhd, hrest⟩
    by_cases hk : k2 = n
    · subst hk
      have hl : lookupQ ((k2, v2) :: rest) k2 = some v2 := by simp [lookupQ]
      rw [hl]
      constructor
      · intro hm
        rcases List.mem_cons.mp hm with hEq | hm2
        · rw [Prod.ext_iff] at hEq
          have hv : v = v2 := hEq.2
          rw [hv]
        · exact absurd rfl (hhd (k2, v) hm2)
      · intro hEq
        have hv : v2 = v := Option.some.inj hEq
        rw [← hv]
        exact List.mem_cons_self _ _
    · have hkn : ¬ ((n, v) = (k2, v2)) := by
        intro hEq
        rw [Prod.ext_iff] at hEq
        exact hk hEq.1.symm
      simp only [lookupQ, if_neg hk, List.mem_cons, hkn, false_or]
      exact ih hrest n v

theorem lookupQ_foldl_bump : ∀ (l m : List (Str × ℚ)) (n : Str),
    lookupQ (List.foldl (fun acc x => bumpKey acc x.1 x.2) m l) n =
      match lookupQ m n with
      | some w => some (w + sumFor l n)
      | none => if n ∈ l.map Prod.fst then some (sumFor l n) else none := by
  intro l
  induction l with
  | nil =>
    intro m n
    cases hm : lookupQ m n <;> simp [sumFor, hm]
  | cons hd t ih =>
    intro m n
    obtain ⟨k, v⟩ := hd
    rw [List.foldl_cons, ih, lookupQ_bumpKey]
    dsimp only
    by_cases hk : k = n
    · subst hk
      have hsum : sumFor ((k, v) :: t) k = v + sumFor t k := by
        simp [sumFor, List.filter_cons]
      cases hm : lookupQ m k with
      | some w => simp [hsum, add_assoc]
      | none => simp [hsum]
    · have hsum : sumFor ((k, v) :: t) n = sumFor t n := by
        simp [sumFor, List.filter_cons, hk]
      cases hm : lookupQ m n with
      | some w => simp [hsum, hk]
      | none =>
        by_cases ht : n ∈ List.map Prod.fst t
        · have h2 : n ∈ k :: List.map Prod.fst t := List.mem_cons_of_mem _ ht
          simp [hsum, hk, ht, h2]
        · have h2 : n ∉ k :: List.map Prod.fst t := by
            simp [List.mem_cons, Ne.symm hk, ht]
          simp [hsum, hk, ht, h2]

theorem pairwise_aggregate (l : List (Str × ℚ)) :
    List.Pairwise (fun a b => a.1 ≠ b.1) (aggregate l) := by
  have key : ∀ (l2 m : List (Str × ℚ)), List.Pairwise (fun a b => a.1 ≠ b.1) m →
      List.Pairwise (fun a b => a.1 ≠ b.1)
        (List.foldl (fun acc x => bumpKey acc x.1 x.2) m l2) := by
    intro l2
    induction l2 with
    | nil => intro m h; simpa using h
    | cons hd t ih =>
      intro m h
      rw [List.foldl_cons]
      exact ih _ (pairwise_bumpKey m hd.1 hd.2 h)
  exact key l [] (by simp)

theorem lookupQ_aggregate (l : List (Str × ℚ)) (n : Str) :
    lookupQ (aggregate l) n = if n ∈ l.map Prod.fst then some (sumFor l n) else none := by
  rw [aggregate, lookupQ_foldl_bump l [] n]
  rfl

theorem mem_aggregate_iff (l : List (Str × ℚ)) (n : Str) (v : ℚ) :
    (n, v) ∈ aggregate l ↔ (n ∈ l.map Prod.fst ∧ v = sumFor l n) := by
  rw [mem_iff_lookupQ (pairwise_aggregate l) n v, lookupQ_aggregate]
  by_cases h : n ∈ l.map Prod.fst <;> simp [h, eq_comm]

/-! ### Claim C5 -/

/-- C5 (amended): for every run in which no inserted or consumed item name
contains the token Consumed and every consumed quantity is an exact
multiple of one millionth (the resolution of the six-decimal record
format), the shopping list equals the aggregation of the successful
consumptions of the run: it holds exactly one entry per name with any
successful consumption, carrying the sum of the quantities of all
successful consume operations for that name, and no entry for any other
name. -/
theorem shoppingList_totals (ops : List Op)
    (hname : ∀ op ∈ ops, ∀ n, opName op = some n → containsSub conTag n = false)
    (hquant : ∀ op ∈ ops, ∀ n q, op = Op.con n q →
      (∃ k : ℕ, q = (k : ℚ) / 1000000) ∨ q ≤ 0) :
    (generateShoppingList (runOps ops)).2 = aggregate (consumesOf initFridge ops) ∧
    (∀ n v, ((n, v) ∈ aggregate (consumesOf initFridge ops) ↔
      (n ∈ (consumesOf initFridge ops).map Prod.fst ∧
        v = sumFor (consumesOf initFridge ops) n))) ∧
    List.Pairwise (fun a b => a.1 ≠ b.1) (aggregate (consumesOf initFridge ops)) := by
  refine ⟨?_, fun n v => mem_aggregate_iff _ n v, pairwise_aggregate _⟩
  show (runOps ops).history.foldl shoppingStep [] = _
  rw [show runOps ops = ops.foldl applyOp initFridge from rfl, foldl_applyOp_history]
  rw [show initFridge.history = ([] : List Str) from rfl, List.nil_append, aggregate]
  exact shoppingFold_histDeltas ops initFridge [] hname hquant

/-- Witness for C5 on the juice scenario: insert 4, consume 2 — the
shopping list holds the single entry with total 2. -/
theorem shoppingList_totals_witness :
    (generateShoppingList (runOps [Op.ins ['j'] 4 ['d'], Op.con ['j'] 2])).2 =
      aggregate (consumesOf initFridge [Op.ins ['j'] 4 ['d'], Op.con ['j'] 2]) ∧
    aggregate (consumesOf initFridge [Op.ins ['j'] 4 ['d'], Op.con ['j'] 2]) =
      [(['j'], 2)] := by
  have hname : ∀ op ∈ [Op.ins ['j'] 4 ['d'], Op.con ['j'] 2], ∀ n, opName op = some n →
      containsSub conTag n = false := by
    intro op hop n hn
    rcases List.mem_cons.mp hop with rfl | hop2
    · rw [show opName (Op.ins ['j'] 4 ['d']) = some ['j'] from rfl] at hn
      rw [← Option.some.inj hn]
      decide
    · rcases List.mem_cons.mp hop2 with rfl | hop3
      · rw [show opName (Op.con ['j'] 2) = some ['j'] from rfl] at hn
        rw [← Option.some.inj hn]
        decide
      · simp at hop3
  have hquant : ∀ op ∈ [Op.ins ['j'] 4 ['d'], Op.con ['j'] 2], ∀ n q, op = Op.con n q →
      (∃ k : ℕ, q = (k : ℚ) / 1000000) ∨ q ≤ 0 := by
    intro op hop n q hEq
    subst hEq
    rcases List.mem_cons.mp hop with hEq2 | hop2
    · exact absurd hEq2 (by simp)
    · rcases List.mem_cons.mp hop2 with hEq2 | hop3
      · left
        refine ⟨2000000, ?_⟩
        have hq : q = 2 := ((Op.con.injEq _ _ _ _).mp hEq2).2
        rw [hq]
        norm_num
      · simp at hop3
  have h := shoppingList_totals _ hname hquant
  refine ⟨h.1, ?_⟩
  norm_num [consumesOf, applyOp, insertProduct, initFridge, lookupP, aggregate, bumpKey]

/-- C5 as literally stated fails on the code on two counts: inserting an
item whose name contains the token Consumed creates a shopping-list entry
although nothing was ever consumed, and a consumed quantity needing more
than six decimals is aggregated from the rounded log record instead of the
true quantity. -/
theorem shoppingList_cex :
    (generateShoppingList (runOps [Op.ins conTag 2 ['d']])).2 ≠ [] ∧
    (['j'], (1 : ℚ) / 3) ∉
      (generateShoppingList (runOps [Op.ins ['j'] 1 ['d'], Op.con ['j'] (1 / 3)])).2 := by
  constructor
  · have hto2 : to6dp 2 = ['2', '.', '0', '0', '0', '0', '0', '0'] := by
      rw [show (2 : ℚ) = ((2000000 : ℕ) : ℚ) / 1000000 by norm_num, to6dp_kdiv]
      decide
    have hhist : (runOps [Op.ins conTag 2 ['d']]).history = [renderIns 2 conTag] := by
      norm_num [runOps, applyOp, insertProduct, initFridge, lookupP]
    show (runOps [Op.ins conTag 2 ['d']]).history.foldl shoppingStep [] ≠ []
    rw [hhist, renderIns, hto2]
    decide
  · have hfloor : round6 (1 / 3) = 333333 := by
      rw [round6]
      norm_num [Int.floor_eq_iff]
    have hto3 : to6dp (1 / 3) = ['0', '.', '3', '3', '3', '3', '3', '3'] := by
      rw [to6dp, hfloor]
      decide
    have hhist : (runOps [Op.ins ['j'] 1 ['d'], Op.con ['j'] (1 / 3)]).history =
        [renderIns 1 ['j'], renderCon (1 / 3) ['j']] := by
      norm_num [runOps, applyOp, insertProduct, consumeProduct, initFridge, lookupP,
        updateP, eraseP]
    have h1 : shoppingStep [] (renderIns 1 ['j']) = [] :=
      shoppingStep_renderIns [] 1 ['j'] (by decide)
    have h2 : shoppingStep [] (renderCon (1 / 3) ['j']) =
        bumpKey [] ['j'] (stodM (to6dp (1 / 3))) :=
      shoppingStep_renderCon [] (1 / 3) ['j'] (by rw [hfloor]; norm_num)
    have hval : stodM (to6dp (1 / 3)) = (333333 : ℚ) / 1000000 := by
      rw [hto3]
      rw [show stodM ['0', '.', '3', '3', '3', '3', '3', '3'] =
        parsePos ['0', '.', '3', '3', '3', '3', '3', '3'] from by simp [stodM]]
      have hdp : List.dropWhile (fun c => !(c == '.'))
          ['0', '.', '3', '3', '3', '3', '3', '3'] = '.' :: ['3', '3', '3', '3', '3', '3'] := by
        decide
      have htk : List.takeWhile (fun c => !(c == '.'))
          ['0', '.', '3', '3', '3', '3', '3', '3'] = ['0'] := by decide
      have hd1 : digitsToNat ['0'] = 0 := by decide
      have hd2 : digitsToNat ['3', '3', '3', '3', '3', '3'] = 333333 := by decide
      simp only [parsePos, hdp, htk, hd1, hd2]
      norm_num
    show (['j'], (1 : ℚ) / 3) ∉
      (runOps [Op.ins ['j'] 1 ['d'], Op.con ['j'] (1 / 3)]).history.foldl shoppingStep []
    rw [hhist]
    simp only [List.foldl_cons, List.foldl_nil, h1, h2, hval]
    norm_num [bumpKey]

end Fridge
